import Mathlib

/-!
Verification of the TX-Converter texture pipeline (src/main.py) against its
specification.  Python strings are modelled as `List Char`; ASCII lowering
stands in for `str.lower` (all tokens compared by the program are ASCII).
File-system reads are modelled by passing the file's content explicitly
(`Option` = present/absent-or-unreadable).
-/

namespace TxConv

/-- Convert a Lean string literal to the `List Char` representation used
throughout this development. -/
def lc (s : String) : List Char :=
  s.data

/-- Python `str.lower()` restricted to ASCII (`Char.toLower`). -/
def pyLower (s : List Char) : List Char :=
  s.map Char.toLower

/-- Python whitespace characters as used by `str.strip()`. -/
def isPyWS (c : Char) : Bool :=
  c = ' ' || c = '\t' || c = '\n' || c = '\x0b' || c = '\x0c' || c = '\r'

/-- Python `str.strip()`: drop leading and trailing whitespace. -/
def pyStrip (s : List Char) : List Char :=
  ((s.dropWhile isPyWS).reverse.dropWhile isPyWS).reverse

/-- Python `needle in hay` for strings: contiguous-substring test. -/
def containsSub (needle : List Char) : List Char → Bool
  | [] => needle.isEmpty
  | c :: t => needle.isPrefixOf (c :: t) || containsSub needle t

/-- Split a POSIX path at its last `/`: returns `(p.take (i+1), p.drop (i+1))`
for the last separator index `i`, or `([], p)` when there is none.  The first
component is `head` as computed by `posixpath.split`. -/
def splitAtLastSep : List Char → List Char × List Char
  | [] => ([], [])
  | c :: t =>
    let r := splitAtLastSep t
    if r.1 = [] then
      if c = '/' then ([c], t) else ([], c :: t)
    else
      (c :: r.1, r.2)

/-- `os.path.basename` (POSIX): the part after the last `/`. -/
def basename (p : List Char) : List Char :=
  (splitAtLastSep p).2

/-- Python `str.rstrip('/')`. -/
def rstripSlash (s : List Char) : List Char :=
  (s.reverse.dropWhile (fun c => c = '/')).reverse

/-- `os.path.dirname` (POSIX): `head = p[:i+1]`; if `head` is nonempty and not
all slashes, trailing slashes are stripped. -/
def dirname (p : List Char) : List Char :=
  let head := (splitAtLastSep p).1
  if head ≠ [] ∧ head.any (fun c => c ≠ '/') then rstripSlash head else head

/-- Index of the last occurrence of `c`, scanning the whole list. -/
def lastIdxOf (c : Char) : List Char → Option Nat
  | [] => none
  | x :: t =>
    match lastIdxOf c t with
    | some j => some (j + 1)
    | none => if x = c then some 0 else none

/-- `os.path.splitext` on a separator-free tail: split at the last dot,
provided some earlier character of the tail is not a dot (Python skips
leading dots, so `.bashrc` has no extension). -/
def splitExtTail (tail : List Char) : List Char × List Char :=
  match lastIdxOf '.' tail with
  | none => (tail, [])
  | some i =>
    if (tail.take i).any (fun c => c ≠ '.') then (tail.take i, tail.drop i)
    else (tail, [])

/-- `os.path.splitext` on a full POSIX path: the dot search is confined to the
segment after the last `/`, and the root keeps the directory part. -/
def genSplitExt (p : List Char) : List Char × List Char :=
  let s := splitAtLastSep p
  let e := splitExtTail s.2
  (s.1 ++ e.1, e.2)

/-- `os.path.join(a, b)` (POSIX, two arguments): `b` wins when absolute,
otherwise a `/` is inserted unless `a` is empty or already ends in `/`. -/
def pathJoin (a b : List Char) : List Char :=
  if b.head? = some '/' then b
  else if a = [] then b
  else if a.getLast? = some '/' then a ++ b
  else a ++ '/' :: b

/-- `re.sub(r'(\.[^.]+)$', p + r'\1', fname)`: when `fname` ends in a dot
followed by at least one non-dot character, insert `p` before that final
dot; otherwise leave `fname` unchanged. -/
def insertBeforeExt (p fname : List Char) : List Char :=
  match lastIdxOf '.' fname with
  | none => fname
  | some i =>
    if i + 1 < fname.length then fname.take i ++ p ++ fname.drop i else fname

/-! ### ACES config inspector (`detect_aces_version`, src/main.py:33-60) -/

/-- Marker strings whose presence implies an ACES 1.3 generation config. -/
def version13Markers : List (List Char) :=
  [lc "ocio_profile_version: 2.2", lc "ACES 1.3", lc "ACES 1.1",
   lc "ACES 1.0 - SDR Video"]

/-- Marker strings whose presence implies an ACES 1.0.3 generation config. -/
def version10Markers : List (List Char) :=
  [lc "An ACES config generated from python", lc "ACES - ACES2065-1",
   lc "Output - Rec.709"]

/-- `any(m.lower() in check for m in markers)` where
`check = line.strip().lower()`. -/
def lineHasMarker (markers : List (List Char)) (line : List Char) : Bool :=
  markers.any (fun m => containsSub (pyLower m) (pyLower (pyStrip line)))

/-- The per-line body of the read loop: 1.3 markers are tested before 1.0.3
markers on each line. -/
def checkAcesLine (line : List Char) : Option (List Char) :=
  if lineHasMarker version13Markers line then some (lc "1.3")
  else if lineHasMarker version10Markers line then some (lc "1.0.3")
  else none

/-- Scan lines in order, returning at the first marker hit. -/
def scanAcesLines : List (List Char) → List Char
  | [] => lc "unknown"
  | line :: rest =>
    match checkAcesLine line with
    | some v => v
    | none => scanAcesLines rest

/-- `detect_aces_version`.  The file system is abstracted: `none` stands for
an empty path, an absent file, or an unreadable file (the bare `except`
swallows the error); `some lines` is the file's line contents.  Only the
first 500 lines are read. -/
def detect_aces_version : Option (List (List Char)) → List Char
  | none => lc "unknown"
  | some lines => scanAcesLines (lines.take 500)

/-! ### Color-space classifier (`determine_color_space`, src/main.py:889-967) -/

/-- The per-color-space single-string suffix patterns
(`userSettings["patterns"]`). -/
structure Patterns where
  raw : List Char
  lin_srgb : List Char
  acescg : List Char
  srgb_texture : List Char

/-- The per-color-space custom substring lists
(`userSettings["custom_patterns"]`). -/
structure CustomPatterns where
  raw : List (List Char)
  lin_srgb : List (List Char)
  acescg : List (List Char)
  srgb_texture : List (List Char)

/-- The defaults baked into `load_user_settings`. -/
def defaultPatterns : Patterns :=
  ⟨lc "_raw", lc "_lin_srgb", lc "_acescg", lc "_srgb_texture"⟩

/-- Default custom pattern lists are all empty. -/
def defaultCustom : CustomPatterns :=
  ⟨[], [], [], []⟩

/-- `raw_list = [p_raw.lower()] + [s.lower() for s in custom_raw]`. -/
def rawList (pats : Patterns) (cust : CustomPatterns) : List (List Char) :=
  pyLower pats.raw :: cust.raw.map pyLower

/-- `lin_list`, as in the source. -/
def linList (pats : Patterns) (cust : CustomPatterns) : List (List Char) :=
  pyLower pats.lin_srgb :: cust.lin_srgb.map pyLower

/-- `acescg_list`, as in the source. -/
def acescgList (pats : Patterns) (cust : CustomPatterns) : List (List Char) :=
  pyLower pats.acescg :: cust.acescg.map pyLower

/-- `srgb_tex_list`, as in the source. -/
def srgbTexList (pats : Patterns) (cust : CustomPatterns) : List (List Char) :=
  pyLower pats.srgb_texture :: cust.srgb_texture.map pyLower

/-- `any(sub in base_lower for sub in tokens)`. -/
def matchesAny (tokens : List (List Char)) (s : List Char) : Bool :=
  tokens.any (fun t => containsSub t s)

/-- `base_lower = os.path.splitext(os.path.basename(filename))[0].lower()`. -/
def stemLower (filename : List Char) : List Char :=
  pyLower (genSplitExt (basename filename)).1

/-- `sub` occurs in `s` at a position where the following character (if any)
is not a lowercase letter: the regex fragment `sub(?![a-z])`. -/
def matchNotLowerAt (sub s : List Char) : Bool :=
  sub.isPrefixOf s &&
    match s.drop sub.length with
    | [] => true
    | c :: _ => !c.isLower

/-- Search `sub(?![a-z])` at every position of `s`. -/
def searchNotLowerAfter (sub : List Char) : List Char → Bool
  | [] => matchNotLowerAt sub []
  | c :: t => matchNotLowerAt sub (c :: t) || searchNotLowerAfter sub t

/-- The literal alternatives of `RAW_DATA_PATTERN` (all the branches without
a lookahead), lowercase as matched under `re.IGNORECASE` on the lowered stem. -/
def rawDataLiterals : List (List Char) :=
  [lc "_depth", lc "_disp", lc "_displacement", lc "_zdisp", lc "_normal",
   lc "_nrm", lc "_norm", lc "_mask", lc "_rough", lc "_metal", lc "_gloss",
   lc "_spec", lc "_ao", lc "_cavity", lc "_bump", lc "_height",
   lc "_opacity", lc "_roughness", lc "_roughnes", lc "_specularity",
   lc "_specs", lc "_metalness", lc "_metalnes", lc "spcr", lc "bmp",
   lc "bump", lc "hight", lc "disp", lc "rough", lc "emm", lc "emission",
   lc "spec", lc "norm", lc "normal"]

/-- `re.search(RAW_DATA_PATTERN, base_lower)`: some literal alternative is a
substring, or `_n`/`_r` occurs not followed by a lowercase letter. -/
def rawDataMatch (s : List Char) : Bool :=
  rawDataLiterals.any (fun p => containsSub p s)
    || searchNotLowerAfter (lc "_n") s
    || searchNotLowerAfter (lc "_r") s

/-- `determine_color_space(filename, extension, tif_srgb)`: returns
`(color_space, additional_options, new_name)`, translated branch by branch
from src/main.py lines 889-967. -/
def determine_color_space (pats : Patterns) (cust : CustomPatterns)
    (filename extension : List Char) (tif_srgb : Bool) :
    List Char × List Char × List Char :=
  let base_lower := stemLower filename
  if matchesAny (acescgList pats cust) base_lower then
    (lc "acescg", lc "", insertBeforeExt pats.acescg filename)
  else if matchesAny (rawList pats cust) base_lower then
    (lc "raw", lc "-d float", insertBeforeExt pats.raw filename)
  else if matchesAny (srgbTexList pats cust) base_lower then
    (lc "srgb_texture", lc "", insertBeforeExt pats.srgb_texture filename)
  else if matchesAny (linList pats cust) base_lower then
    (lc "lin_srgb", lc "", insertBeforeExt pats.lin_srgb filename)
  else if rawDataMatch base_lower then
    (lc "raw", lc "-d float", insertBeforeExt pats.raw filename)
  else if extension = lc ".exr" then
    (lc "lin_srgb", lc "", insertBeforeExt pats.lin_srgb filename)
  else if extension = lc ".tif" ∨ extension = lc ".tiff" then
    if tif_srgb then
      (lc "srgb_texture", lc "", insertBeforeExt pats.srgb_texture filename)
    else
      (lc "lin_srgb", lc "", insertBeforeExt pats.lin_srgb filename)
  else
    (lc "srgb_texture", lc "", insertBeforeExt pats.srgb_texture filename)

/-- The configured single-string pattern belonging to a color-space label. -/
def patternFor (pats : Patterns) (label : List Char) : List Char :=
  if label = lc "raw" then pats.raw
  else if label = lc "lin_srgb" then pats.lin_srgb
  else if label = lc "acescg" then pats.acescg
  else pats.srgb_texture

/-! ### Texture worker (`TextureWorker.convert_texture`, src/main.py:129-343) -/

/-- The boolean options handed to `TextureWorker.__init__`. -/
structure WorkerCfg where
  rename_to_acescg : Bool
  add_suffix_selected : Bool
  use_compression : Bool
  hdri_mode : Bool
  use_renderman_bumprough : Bool

/-- `re.search(r'(_raw|_srgb_texture|_lin_srgb|_acescg)$', b, re.IGNORECASE)`:
the stem ends (case-insensitively) in one of the four canonical tokens. -/
def hasCsSuffixEnd (b : List Char) : Bool :=
  (lc "_raw").isSuffixOf (pyLower b) ||
  (lc "_srgb_texture").isSuffixOf (pyLower b) ||
  (lc "_lin_srgb").isSuffixOf (pyLower b) ||
  (lc "_acescg").isSuffixOf (pyLower b)

/-- `re.sub(r'(_raw|_srgb_texture|_lin_srgb|_acescg)$', '', b, re.IGNORECASE)`.
The four alternatives end in distinct characters, so at most one can match
at the end of the stem; the matched ending (if any) is removed. -/
def stripCsSuffix (b : List Char) : List Char :=
  if (lc "_srgb_texture").isSuffixOf (pyLower b) then b.take (b.length - 13)
  else if (lc "_lin_srgb").isSuffixOf (pyLower b) then b.take (b.length - 9)
  else if (lc "_acescg").isSuffixOf (pyLower b) then b.take (b.length - 7)
  else if (lc "_raw").isSuffixOf (pyLower b) then b.take (b.length - 4)
  else b

/-- The suffix logic of src/main.py:163-176: returns the (possibly stripped)
base name together with the suffix appended to the output file name. -/
def workerSuffix (cfg : WorkerCfg) (color_space base_name : List Char) :
    List Char × List Char :=
  if cfg.rename_to_acescg then (stripCsSuffix base_name, lc "_acescg")
  else if cfg.add_suffix_selected then
    if hasCsSuffixEnd base_name then (base_name, [])
    else (base_name, '_' :: color_space)
  else (base_name, [])

/-- `re.search(r'_disp|_displacement|_zdisp', base_name, re.IGNORECASE)`. -/
def isDispName (b : List Char) : Bool :=
  matchesAny [lc "_disp", lc "_displacement", lc "_zdisp"] (pyLower b)

/-- `re.search(r'_bump|_height', base_name, re.IGNORECASE)`. -/
def isBumpName (b : List Char) : Bool :=
  matchesAny [lc "_bump", lc "_height"] (pyLower b)

/-- `sub` occurs in `s` followed by a character that is not a lowercase
letter: the regex fragment `sub(?=[^a-z])` (a following character must
exist). -/
def matchThenNotLowerAt (sub s : List Char) : Bool :=
  sub.isPrefixOf s &&
    match s.drop sub.length with
    | [] => false
    | c :: _ => !c.isLower

/-- Search `sub(?=[^a-z])` at every position of `s`. -/
def searchThenNotLowerAfter (sub : List Char) : List Char → Bool
  | [] => false
  | c :: t => matchThenNotLowerAt sub (c :: t) || searchThenNotLowerAfter sub t

/-- `re.search(r'_normal|_nrm|_norm(?=[^a-z])', base_name, re.IGNORECASE)`. -/
def isNormalName (b : List Char) : Bool :=
  containsSub (lc "_normal") (pyLower b) ||
  containsSub (lc "_nrm") (pyLower b) ||
  searchThenNotLowerAfter (lc "_norm") (pyLower b)

/-- Bit-depth selection (src/main.py:186-198). `ext` is the lowered source
extension without its dot. -/
def bitDepth (cfg : WorkerCfg) (color_space ext : List Char) (isDisp : Bool) :
    List Char :=
  if isDisp then lc "float"
  else if cfg.hdri_mode && !(color_space = lc "raw") then lc "float"
  else if ext = lc "jpg" ∨ ext = lc "jpeg" ∨ ext = lc "gif" ∨ ext = lc "bmp" then
    lc "uint8"
  else if ext = lc "png" ∨ ext = lc "tif" ∨ ext = lc "tiff" ∨ ext = lc "exr" then
    lc "half"
  else lc "uint16"

/-- `base_name` as computed at src/main.py:155. -/
def texStem (texture : List Char) : List Char :=
  (genSplitExt (basename texture)).1

/-- `ext = ext_with_dot.lower()[1:]` (src/main.py:156). -/
def texExtLower (texture : List Char) : List Char :=
  (pyLower (genSplitExt (basename texture)).2).drop 1

/-- Color-management section of the Houdini `imaketx` command
(src/main.py:207-218). -/
def ratColorPart (color_config aces_version color_space : List Char) :
    List (List Char) :=
  if color_space = lc "raw" ∨ color_space = lc "acescg" then []
  else if color_config ≠ [] then
    [lc "--colormanagement", lc "ocio", lc "--colorconvert",
     (if color_space = lc "lin_srgb" then
        (if aces_version = lc "1.3" then lc "Linear Rec.709 (sRGB)"
         else lc "lin_srgb")
      else
        (if aces_version = lc "1.3" then lc "sRGB - Texture"
         else lc "srgb_texture")),
     lc "ACEScg"]
  else [lc "--colormanagement", lc "builtin"]

/-- The Houdini `.rat` command (src/main.py:203-220). -/
def ratCmd (cfg : WorkerCfg)
    (imaketx_path color_config aces_version texture color_space : List Char) :
    List (List Char) :=
  let s := workerSuffix cfg color_space (texStem texture)
  let out_file := pathJoin (dirname texture) (s.1 ++ s.2 ++ lc ".rat")
  [imaketx_path, lc "-v", lc "--format", lc "RAT"]
    ++ ratColorPart color_config aces_version color_space
    ++ [texture, out_file]

/-- `-ocioconvert` section of the RenderMan `txmake` command
(src/main.py:253-267). -/
def txColorPart (color_config aces_version color_space : List Char) :
    List (List Char) :=
  if ¬(color_space = lc "raw" ∨ color_space = lc "acescg")
      ∧ color_config ≠ [] then
    if color_space = lc "lin_srgb" then
      if aces_version = lc "1.3" then
        [lc "-ocioconvert", lc "Linear Rec.709 (sRGB)", lc "ACEScg"]
      else [lc "-ocioconvert", lc "lin_srgb", lc "ACES - ACEScg"]
    else if color_space = lc "srgb_texture" then
      if aces_version = lc "1.3" then
        [lc "-ocioconvert", lc "sRGB - Texture", lc "ACEScg"]
      else [lc "-ocioconvert", lc "srgb_texture", lc "ACES - ACEScg"]
    else []
  else []

/-- The RenderMan `.tex`/`.b2r` command (src/main.py:241-280). -/
def txCmd (cfg : WorkerCfg)
    (txmake_path color_config aces_version texture color_space : List Char) :
    List (List Char) :=
  let s := workerSuffix cfg color_space (texStem texture)
  let ext := texExtLower texture
  let bd := bitDepth cfg color_space ext (isDispName s.1)
  let isN := isNormalName s.1
  let bumpSel := cfg.use_renderman_bumprough && (isBumpName s.1 || isN)
  let out_ext := if bumpSel then lc ".b2r" else '.' :: (ext ++ lc ".tex")
  let out_file := pathJoin (dirname texture) (s.1 ++ s.2 ++ out_ext)
  [txmake_path, lc "-format", lc "openexr"]
    ++ (if cfg.use_compression then [lc "-compression", lc "zip"] else [])
    ++ (if bd = lc "half" then [lc "-half"]
        else if bd = lc "float" then [lc "-float"] else [])
    ++ [lc "-resize", lc "round-", lc "-mode", lc "periodic"]
    ++ txColorPart color_config aces_version color_space
    ++ (if bumpSel then
          (if isN then
            [lc "-bumprough", lc "2", lc "0", lc "1", lc "0", lc "0", lc "1"]
           else
            [lc "-bumprough", lc "2", lc "0", lc "0", lc "0", lc "0", lc "1"])
        else [])
    ++ [texture, out_file]

/-- `--colorconfig`/`--colorconvert` section of the Arnold `maketx` command
(src/main.py:313-328). -/
def arnoldColorPart (color_config aces_version color_space : List Char) :
    List (List Char) :=
  if ¬(color_space = lc "raw" ∨ color_space = lc "acescg")
      ∧ color_config ≠ [] then
    [lc "--colorconfig", color_config]
      ++ (if color_space = lc "lin_srgb" then
            (if aces_version = lc "1.3" then
              [lc "--colorconvert", lc "Linear Rec.709 (sRGB)", lc "ACEScg"]
             else [lc "--colorconvert", lc "lin_srgb", lc "ACES - ACEScg"])
          else if color_space = lc "srgb_texture" then
            (if aces_version = lc "1.3" then
              [lc "--colorconvert", lc "sRGB - Texture", lc "ACEScg"]
             else [lc "--colorconvert", lc "srgb_texture", lc "ACES - ACEScg"])
          else [])
  else []

/-- The Arnold `.tx` command (src/main.py:300-328). -/
def arnoldCmd (cfg : WorkerCfg)
    (arnold_path color_config aces_version texture color_space : List Char) :
    List (List Char) :=
  let s := workerSuffix cfg color_space (texStem texture)
  let arnold_out := pathJoin (dirname texture) (s.1 ++ s.2 ++ lc ".tx")
  let isD := isDispName s.1
  let bd := bitDepth cfg color_space (texExtLower texture) isD
  [arnold_path, lc "-v", lc "-o", arnold_out, lc "-u", lc "--format", lc "exr",
   lc "-d", bd]
    ++ (if cfg.use_compression && !isD then [lc "--compression", lc "dwaa"]
        else [])
    ++ [lc "--oiio", texture]
    ++ arnoldColorPart color_config aces_version color_space

/-- Outcome of the external `subprocess.run` invocation. -/
inductive ProcRes where
  | completed (exitCode : Int) (stdout stderr : List Char)
  | launchFailure
deriving DecidableEq

/-- Model of the try/except around `subprocess.run` in the Arnold branch
(src/main.py:331-343).  `subprocess.run` is called without `check=True`, so
it never raises `CalledProcessError`: a completed process, whatever its exit
code, reaches the `"Converted: ..."` log line.  A failure to launch raises
`OSError`, which the handler (catching only `CalledProcessError`) does not
intercept, so the exception escapes `convert_texture` (second component
`true` = exception propagates to `run`). -/
def arnoldRunLogs (texture arnold_out : List Char) :
    ProcRes → List (List Char) × Bool
  | .completed _ out err =>
    ((if out ≠ [] then [lc "maketx output: " ++ pyStrip out] else [])
      ++ (if err ≠ [] then [lc "maketx errors: " ++ pyStrip err] else [])
      ++ [lc "Converted: " ++ texture ++ lc " -> " ++ arnold_out], false)
  | .launchFailure => ([], true)

/-! ### Batch scheduler (`TextureWorker.run`, src/main.py:107-127) -/

/-- Fuel-driven consecutive chunking; the fuel bounds the iteration count. -/
def chunksF : Nat → Nat → List α → List (List α)
  | 0, _, _ => []
  | _, _, [] => []
  | fuel + 1, c, x :: t => (x :: t).take c :: chunksF fuel c ((x :: t).drop c)

/-- `textures[i:i+batch_size] for i in range(0, total, batch_size)`.  With
`batch_size ≥ 1` the loop runs at most `total` times, so the list length is
sufficient fuel (`batch_size = 0` raises in Python; the settings dialog
restricts it to `1..64`). -/
def chunks (c : Nat) (l : List α) : List (List α) :=
  if c = 0 then [] else chunksF l.length c l

/-- Observable scheduler output: a progress signal carrying the running
processed count, an error log line for an item whose conversion raised, and
the finished signal. -/
inductive Event where
  | progress (n : Nat)
  | errorLog
  | finished
deriving DecidableEq

/-- Events for one bounded-concurrency group, in completion order: each item
contributes its optional `"Error during conversion"` log followed by the
incremented processed count (src/main.py:120-126). -/
def groupEvents (raises : α → Bool) (processed : Nat) : List α → List Event
  | [] => []
  | x :: t =>
    (if raises x then [Event.errorLog] else [])
      ++ Event.progress (processed + 1) :: groupEvents raises (processed + 1) t

/-- Events of all groups in order, threading the processed counter. -/
def batchEvents (raises : α → Bool) (processed : Nat) :
    List (List α) → List Event
  | [] => []
  | g :: gs => groupEvents raises processed g
      ++ batchEvents raises (processed + g.length) gs

/-- `TextureWorker.run`: the groups are awaited in order; within each group
the completion order is arbitrary, so `groups` is any per-group permutation
of `chunks c textures`.  After the last group drains, a single finished
signal is emitted. -/
def runEvents (raises : α → Bool) (groups : List (List α)) : List Event :=
  batchEvents raises 0 groups ++ [Event.finished]

/-- The payloads of the progress events, in emission order. -/
def progressValues : List Event → List Nat
  | [] => []
  | Event.progress n :: t => n :: progressValues t
  | _ :: t => progressValues t

/-! ### Rename pass and texture selection (src/main.py:971-1104) -/

/-- `valid_exts` of the rename passes (src/main.py:974 and 1026). -/
def validExts : List (List Char) :=
  [lc ".exr", lc ".jpg", lc ".jpeg", lc ".png", lc ".tif", lc ".tiff",
   lc ".bmp", lc ".gif"]

/-- The hardcoded already-suffixed check list (src/main.py:1002 and 1045). -/
def hardSuffixTokens : List (List Char) :=
  [lc "_raw", lc "_srgb_texture", lc "_lin_srgb", lc "_acescg"]

/-- The four recognized color-space labels. -/
def fourLabels : List (List Char) :=
  [lc "raw", lc "srgb_texture", lc "lin_srgb", lc "acescg"]

/-- One file of the add-suffix rename pass (`rename_dropped_files`,
src/main.py:1028-1057; the per-file logic of `rename_files` with
`add_suffix=True`, src/main.py:985-1012, is identical).  `os.rename` is
modelled as succeeding.  Returns the file's updated path and whether it was
renamed. -/
def renameOne (pats : Patterns) (cust : CustomPatterns) (tifSrgb : Bool)
    (file_path : List Char) : List Char × Bool :=
  let extension := pyLower (genSplitExt file_path).2
  if ¬ extension ∈ validExts then (file_path, false)
  else
    let cs := (determine_color_space pats cust file_path extension tifSrgb).1
    if ¬ cs ∈ fourLabels then (file_path, false)
    else
      let be := genSplitExt (basename file_path)
      if hardSuffixTokens.any (fun suf => containsSub suf (pyLower be.1)) then
        (file_path, false)
      else
        (pathJoin (dirname file_path) (be.1 ++ '_' :: (cs ++ be.2)), true)

/-- The add-suffix rename pass over a file list: updated paths plus the
number of files actually renamed. -/
def renamePass (pats : Patterns) (cust : CustomPatterns) (tifSrgb : Bool) :
    List (List Char) → List (List Char) × Nat
  | [] => ([], 0)
  | f :: rest =>
    let r := renameOne pats cust tifSrgb f
    let rs := renamePass pats cust tifSrgb rest
    (r.1 :: rs.1, (if r.2 then 1 else 0) + rs.2)

/-- The selection loop of `process_textures` (src/main.py:1093-1099):
partition the gathered textures into selected (recognized color space) and
skipped. -/
def selectTextures (pats : Patterns) (cust : CustomPatterns) (tifSrgb : Bool) :
    List (List Char) →
      List (List Char × List Char × List Char) × List (List Char)
  | [] => ([], [])
  | tex :: rest =>
    let extension := pyLower (genSplitExt tex).2
    let r := determine_color_space pats cust tex extension tifSrgb
    let rs := selectTextures pats cust tifSrgb rest
    if r.1 ∈ [lc "lin_srgb", lc "srgb_texture", lc "raw", lc "acescg"] then
      ((tex, r.1, r.2.1) :: rs.1, rs.2)
    else (rs.1, tex :: rs.2)

/-- The color-transform flags named by the specification: `--colorconvert`
(Houdini and Arnold), `-ocioconvert` (RenderMan), `--colorconfig` (Arnold). -/
def colorTransformFlags : List (List Char) :=
  [lc "--colorconvert", lc "-ocioconvert", lc "--colorconfig"]

/-! ## Lemmas -/

theorem containsSub_iff (n : List Char) : ∀ h : List Char,
    containsSub n h = true ↔ n <:+: h := by
  intro h
  induction h with
  | nil =>
    simp [containsSub, List.isEmpty_iff]
  | cons c t ih =>
    simp [containsSub, ih, List.infix_cons_iff]

theorem containsSub_append_self (a n : List Char) :
    containsSub n (a ++ n) = true :=
  (containsSub_iff n (a ++ n)).2 ⟨a, [], by simp⟩

/-- The classifier's label is always one of the four recognized ones. -/
theorem determine_color_space_mem (pats : Patterns) (cust : CustomPatterns)
    (filename extension : List Char) (tifSrgb : Bool) :
    (determine_color_space pats cust filename extension tifSrgb).1
      ∈ fourLabels := by
  simp only [determine_color_space]
  split_ifs <;> simp +decide [fourLabels]

/-- C3: if the stem contains a recognized suffix token (built-in or
user-configured synonym, matched case-insensitively as a substring), the
classifier returns that token's color space regardless of the extension,
the TIF option and the later heuristics; the token families are tested in
the order ACEScg, RAW, sRGB-texture, linear-sRGB, first match winning. -/
theorem c3_suffix_token_priority (pats : Patterns) (cust : CustomPatterns)
    (filename extension : List Char) (tifSrgb : Bool) :
    (matchesAny (acescgList pats cust) (stemLower filename) = true →
      (determine_color_space pats cust filename extension tifSrgb).1
        = lc "acescg") ∧
    (matchesAny (acescgList pats cust) (stemLower filename) = false →
      matchesAny (rawList pats cust) (stemLower filename) = true →
      (determine_color_space pats cust filename extension tifSrgb).1
        = lc "raw") ∧
    (matchesAny (acescgList pats cust) (stemLower filename) = false →
      matchesAny (rawList pats cust) (stemLower filename) = false →
      matchesAny (srgbTexList pats cust) (stemLower filename) = true →
      (determine_color_space pats cust filename extension tifSrgb).1
        = lc "srgb_texture") ∧
    (matchesAny (acescgList pats cust) (stemLower filename) = false →
      matchesAny (rawList pats cust) (stemLower filename) = false →
      matchesAny (srgbTexList pats cust) (stemLower filename) = false →
      matchesAny (linList pats cust) (stemLower filename) = true →
      (determine_color_space pats cust filename extension tifSrgb).1
        = lc "lin_srgb") := by
  refine ⟨fun h1 => ?_, fun h1 h2 => ?_, fun h1 h2 h3 => ?_,
    fun h1 h2 h3 h4 => ?_⟩ <;>
    simp [determine_color_space, h1]
  · simp [h2]
  · simp [h2, h3]
  · simp [h2, h3, h4]

/-- C3 witness: `tree_acescg.jpg` classifies as ACEScg under the default
configuration whatever the extension argument says. -/
theorem c3_witness :
    (determine_color_space defaultPatterns defaultCustom
      (lc "tree_acescg.jpg") (lc ".jpg") true).1 = lc "acescg" :=
  (c3_suffix_token_priority defaultPatterns defaultCustom
    (lc "tree_acescg.jpg") (lc ".jpg") true).1 (by decide)

/-- C4: a stem matching the non-color-data pattern family, with no explicit
suffix token, classifies RAW with the `-d float` hint, for every extension. -/
theorem c4_non_color_data_raw (pats : Patterns) (cust : CustomPatterns)
    (filename extension : List Char) (tifSrgb : Bool)
    (h1 : matchesAny (acescgList pats cust) (stemLower filename) = false)
    (h2 : matchesAny (rawList pats cust) (stemLower filename) = false)
    (h3 : matchesAny (srgbTexList pats cust) (stemLower filename) = false)
    (h4 : matchesAny (linList pats cust) (stemLower filename) = false)
    (h5 : rawDataMatch (stemLower filename) = true) :
    (determine_color_space pats cust filename extension tifSrgb).1 = lc "raw"
      ∧ (determine_color_space pats cust filename extension tifSrgb).2.1
          = lc "-d float" := by
  simp [determine_color_space, h1, h2, h3, h4, h5]

/-- C4 witness: `rock_normal.png` matches the non-color-data family and is
classified RAW with the force-float hint, despite the `.png` extension. -/
theorem c4_witness :
    (determine_color_space defaultPatterns defaultCustom
        (lc "rock_normal.png") (lc ".png") true).1 = lc "raw"
      ∧ (determine_color_space defaultPatterns defaultCustom
          (lc "rock_normal.png") (lc ".png") true).2.1 = lc "-d float" :=
  c4_non_color_data_raw defaultPatterns defaultCustom
    (lc "rock_normal.png") (lc ".png") true
    (by decide) (by decide) (by decide) (by decide) (by decide)

/-- C5: when neither a suffix token nor the non-color-data family matches,
the extension default applies: `.exr` gives linear-sRGB, `.tif`/`.tiff`
follow the TIF-default option, and every other extension gives
sRGB-texture. -/
theorem c5_extension_defaults (pats : Patterns) (cust : CustomPatterns)
    (filename : List Char) (tifSrgb : Bool)
    (h1 : matchesAny (acescgList pats cust) (stemLower filename) = false)
    (h2 : matchesAny (rawList pats cust) (stemLower filename) = false)
    (h3 : matchesAny (srgbTexList pats cust) (stemLower filename) = false)
    (h4 : matchesAny (linList pats cust) (stemLower filename) = false)
    (h5 : rawDataMatch (stemLower filename) = false) :
    ((determine_color_space pats cust filename (lc ".exr") tifSrgb).1
        = lc "lin_srgb") ∧
    ((determine_color_space pats cust filename (lc ".tif") tifSrgb).1
        = if tifSrgb then lc "srgb_texture" else lc "lin_srgb") ∧
    ((determine_color_space pats cust filename (lc ".tiff") tifSrgb).1
        = if tifSrgb then lc "srgb_texture" else lc "lin_srgb") ∧
    (∀ extension : List Char, extension ≠ lc ".exr" →
      extension ≠ lc ".tif" → extension ≠ lc ".tiff" →
      (determine_color_space pats cust filename extension tifSrgb).1
        = lc "srgb_texture") := by
  refine ⟨?_, ?_, ?_, fun extension he ht htt => ?_⟩ <;>
    simp +decide [determine_color_space, h1, h2, h3, h4, h5]
  · cases tifSrgb <;> simp
  · cases tifSrgb <;> simp
  · simp [he, ht, htt]

/-- C5 witness: under default settings, `foo.exr` is linear-sRGB, `foo.tif`
follows the TIF option, and `foo.jpg` falls back to sRGB-texture. -/
theorem c5_witness :
    ((determine_color_space defaultPatterns defaultCustom (lc "foo.exr")
        (lc ".exr") true).1 = lc "lin_srgb")
      ∧ ((determine_color_space defaultPatterns defaultCustom (lc "foo.tif")
          (lc ".tif") true).1 = lc "srgb_texture")
      ∧ ((determine_color_space defaultPatterns defaultCustom (lc "foo.tif")
          (lc ".tif") false).1 = lc "lin_srgb")
      ∧ ((determine_color_space defaultPatterns defaultCustom (lc "foo.jpg")
          (lc ".jpg") true).1 = lc "srgb_texture") := by
  refine ⟨?_, ?_, ?_, ?_⟩
  · exact (c5_extension_defaults defaultPatterns defaultCustom (lc "foo.exr")
      true (by decide) (by decide) (by decide) (by decide) (by decide)).1
  · exact (c5_extension_defaults defaultPatterns defaultCustom (lc "foo.tif")
      true (by decide) (by decide) (by decide) (by decide) (by decide)).2.1
  · exact (c5_extension_defaults defaultPatterns defaultCustom (lc "foo.tif")
      false (by decide) (by decide) (by decide) (by decide) (by decide)).2.1
  · exact (c5_extension_defaults defaultPatterns defaultCustom (lc "foo.jpg")
      true (by decide) (by decide) (by decide) (by decide)
      (by decide)).2.2.2 (lc ".jpg") (by decide) (by decide) (by decide)

/-- C8 counterexample: `foo_raw.png` already carries the recognized `_raw`
token in its stem, yet the classifier still emits a suggested renamed path
with the token inserted again (`foo_raw_raw.png`), so a suggestion is
produced even when a recognized token is already present — and the
classifier takes no add-suffix or rename option at all. -/
theorem c8_counterexample :
    matchesAny (rawList defaultPatterns defaultCustom)
        (stemLower (lc "foo_raw.png")) = true
      ∧ (determine_color_space defaultPatterns defaultCustom
          (lc "foo_raw.png") (lc ".png") true).2.2 = lc "foo_raw_raw.png"
      ∧ ¬ (determine_color_space defaultPatterns defaultCustom
          (lc "foo_raw.png") (lc ".png") true).2.2 = lc "foo_raw.png" := by
  decide

/-- C8 (amended): the classifier unconditionally produces a suggested
renamed path — the original path with the configured token of the resulting
color space inserted before the final dot-extension — independent of any
add-suffix or rename option (which it does not receive) and even when a
recognized token is already present in the stem; the option gating and the
already-suffixed skip live in the rename passes instead. -/
theorem c8_always_suggests (pats : Patterns) (cust : CustomPatterns)
    (filename extension : List Char) (tifSrgb : Bool) :
    (determine_color_space pats cust filename extension tifSrgb).2.2
      = insertBeforeExt
          (patternFor pats
            (determine_color_space pats cust filename extension tifSrgb).1)
          filename := by
  simp only [determine_color_space]
  split_ifs <;> simp +decide [patternFor]

/-- C10: the classifier is total onto the four recognized labels — it never
returns an unrecognized label — and consequently the unrecognized-color-space
skip branch of `process_textures` is unreachable: no texture is skipped and
every gathered texture is selected. -/
theorem c10_classifier_total_selection :
    (∀ (pats : Patterns) (cust : CustomPatterns)
        (filename extension : List Char) (tifSrgb : Bool),
      (determine_color_space pats cust filename extension tifSrgb).1
          ∈ fourLabels
        ∧ (determine_color_space pats cust filename extension tifSrgb).1
            ≠ lc "unknown")
      ∧ (∀ (pats : Patterns) (cust : CustomPatterns) (tifSrgb : Bool)
          (texs : List (List Char)),
        (selectTextures pats cust tifSrgb texs).2 = []
          ∧ (selectTextures pats cust tifSrgb texs).1.length
              = texs.length) := by
  constructor
  · intro pats cust filename extension tifSrgb
    refine ⟨determine_color_space_mem pats cust filename extension tifSrgb, ?_⟩
    have h := determine_color_space_mem pats cust filename extension tifSrgb
    simp only [fourLabels, List.mem_cons, List.not_mem_nil, or_false] at h
    rcases h with h | h | h | h <;> rw [h] <;> decide
  · intro pats cust tifSrgb texs
    induction texs with
    | nil => simp [selectTextures]
    | cons tex rest ih =>
      have h := determine_color_space_mem pats cust tex
        (pyLower (genSplitExt tex).2) tifSrgb
      simp only [fourLabels, List.mem_cons, List.not_mem_nil, or_false] at h
      unfold selectTextures
      rcases h with h | h | h | h <;> simp +decide [h, ih.1, ih.2]

theorem checkAcesLine_eq_none_iff (l : List Char) :
    checkAcesLine l = none
      ↔ lineHasMarker version13Markers l = false
          ∧ lineHasMarker version10Markers l = false := by
  cases h1 : lineHasMarker version13Markers l <;>
    cases h2 : lineHasMarker version10Markers l <;>
      simp [checkAcesLine, h1, h2]

theorem checkAcesLine_some (l v : List Char) (h : checkAcesLine l = some v) :
    v = lc "1.3" ∨ v = lc "1.0.3" := by
  unfold checkAcesLine at h
  split_ifs at h <;> simp at h
  · exact Or.inl h.symm
  · exact Or.inr h.symm

theorem scanAcesLines_unknown : ∀ L : List (List Char),
    (∀ l ∈ L, checkAcesLine l = none) → scanAcesLines L = lc "unknown" := by
  intro L
  induction L with
  | nil => intro _; rfl
  | cons a t ih =>
    intro h
    have ha := h a (List.mem_cons_self a t)
    simp only [scanAcesLines, ha]
    exact ih fun l hl => h l (List.mem_cons_of_mem a hl)

theorem scanAcesLines_range : ∀ L : List (List Char),
    scanAcesLines L = lc "1.3" ∨ scanAcesLines L = lc "1.0.3"
      ∨ scanAcesLines L = lc "unknown" := by
  intro L
  induction L with
  | nil => exact Or.inr (Or.inr rfl)
  | cons a t ih =>
    cases hc : checkAcesLine a with
    | none => simpa [scanAcesLines, hc] using ih
    | some v =>
      have hv := checkAcesLine_some a v hc
      rcases hv with hv | hv <;> simp [scanAcesLines, hc, hv]

theorem scanAcesLines_13 : ∀ L : List (List Char),
    scanAcesLines L = lc "1.3" →
      ∃ l ∈ L, lineHasMarker version13Markers l = true := by
  intro L
  induction L with
  | nil => intro h; exact absurd h (by decide)
  | cons a t ih =>
    intro h
    cases hc : checkAcesLine a with
    | none =>
      simp only [scanAcesLines, hc] at h
      obtain ⟨l, hl, hm⟩ := ih h
      exact ⟨l, List.mem_cons_of_mem a hl, hm⟩
    | some v =>
      simp only [scanAcesLines, hc] at h
      subst h
      by_cases h1 : lineHasMarker version13Markers a = true
      · exact ⟨a, List.mem_cons_self a t, h1⟩
      · exfalso
        unfold checkAcesLine at hc
        rw [if_neg h1] at hc
        by_cases h2 : lineHasMarker version10Markers a = true
        · rw [if_pos h2] at hc
          exact absurd (Option.some.inj hc) (by decide)
        · rw [if_neg h2] at hc
          exact Option.noConfusion hc

theorem scanAcesLines_10 : ∀ L : List (List Char),
    scanAcesLines L = lc "1.0.3" →
      ∃ l ∈ L, lineHasMarker version10Markers l = true := by
  intro L
  induction L with
  | nil => intro h; exact absurd h (by decide)
  | cons a t ih =>
    intro h
    cases hc : checkAcesLine a with
    | none =>
      simp only [scanAcesLines, hc] at h
      obtain ⟨l, hl, hm⟩ := ih h
      exact ⟨l, List.mem_cons_of_mem a hl, hm⟩
    | some v =>
      simp only [scanAcesLines, hc] at h
      subst h
      by_cases h1 : lineHasMarker version13Markers a = true
      · exfalso
        unfold checkAcesLine at hc
        rw [if_pos h1] at hc
        exact absurd (Option.some.inj hc) (by decide)
      · by_cases h2 : lineHasMarker version10Markers a = true
        · exact ⟨a, List.mem_cons_self a t, h2⟩
        · exfalso
          unfold checkAcesLine at hc
          rw [if_neg h1, if_neg h2] at hc
          exact Option.noConfusion hc

theorem scanAcesLines_append_none : ∀ (pre M : List (List Char)),
    (∀ p ∈ pre, checkAcesLine p = none) →
      scanAcesLines (pre ++ M) = scanAcesLines M := by
  intro pre M
  induction pre with
  | nil => intro _; rfl
  | cons a t ih =>
    intro h
    have ha := h a (List.mem_cons_self a t)
    simp only [List.cons_append, scanAcesLines, ha]
    exact ih fun p hp => h p (List.mem_cons_of_mem a hp)

/-- C7: `detect_aces_version` is total over its abstracted input: an empty
path, an absent file or an unreadable file (`none`) gives `"unknown"`; only
the first 500 lines are examined; when no marker occurs in them the result
is `"unknown"`; the result is always one of the three version strings; a
`"1.3"` (resp. `"1.0.3"`) result is backed by a line carrying a marker of
the corresponding set; and the first marker-bearing line decides, its 1.3
markers tested before its 1.0.3 markers. -/
theorem c7_detect_aces_total (lines : List (List Char)) :
    detect_aces_version none = lc "unknown"
      ∧ detect_aces_version (some lines)
          = detect_aces_version (some (lines.take 500))
      ∧ ((∀ l ∈ lines.take 500,
            lineHasMarker version13Markers l = false
              ∧ lineHasMarker version10Markers l = false) →
          detect_aces_version (some lines) = lc "unknown")
      ∧ (detect_aces_version (some lines) = lc "1.3"
          ∨ detect_aces_version (some lines) = lc "1.0.3"
          ∨ detect_aces_version (some lines) = lc "unknown")
      ∧ (detect_aces_version (some lines) = lc "1.3" →
          ∃ l ∈ lines.take 500, lineHasMarker version13Markers l = true)
      ∧ (detect_aces_version (some lines) = lc "1.0.3" →
          ∃ l ∈ lines.take 500, lineHasMarker version10Markers l = true)
      ∧ (∀ pre l post, lines.take 500 = pre ++ l :: post →
          (∀ p ∈ pre, lineHasMarker version13Markers p = false
              ∧ lineHasMarker version10Markers p = false) →
          (lineHasMarker version13Markers l = true →
            detect_aces_version (some lines) = lc "1.3")
          ∧ (lineHasMarker version13Markers l = false →
              lineHasMarker version10Markers l = true →
              detect_aces_version (some lines) = lc "1.0.3")) := by
  refine ⟨rfl, ?_, ?_, scanAcesLines_range _, scanAcesLines_13 _,
    scanAcesLines_10 _, ?_⟩
  · simp [detect_aces_version, List.take_take]
  · intro h
    exact scanAcesLines_unknown _
      fun l hl => (checkAcesLine_eq_none_iff l).2 (h l hl)
  · intro pre l post hsplit hpre
    have hscan : detect_aces_version (some lines)
        = scanAcesLines (l :: post) := by
      show scanAcesLines (lines.take 500) = _
      rw [hsplit]
      exact scanAcesLines_append_none pre (l :: post)
        fun p hp => (checkAcesLine_eq_none_iff p).2 (hpre p hp)
    constructor
    · intro h13
      rw [hscan]
      simp [scanAcesLines, checkAcesLine, h13]
    · intro h13 h10
      rw [hscan]
      simp [scanAcesLines, checkAcesLine, h13, h10]

/-- C7 witness: a two-line config whose second line carries an ACES 1.3
marker is detected as `"1.3"`, and the absent-file case gives `"unknown"`. -/
theorem c7_witness :
    detect_aces_version (some [lc "# comment", lc "  ACES 1.3  "]) = lc "1.3"
      ∧ detect_aces_version none = lc "unknown" := by
  constructor
  · exact ((c7_detect_aces_total [lc "# comment", lc "  ACES 1.3  "]).2.2.2.2.2.2
      [lc "# comment"] (lc "  ACES 1.3  ") [] (by decide) (by decide)).1
      (by decide)
  · exact (c7_detect_aces_total []).1

theorem suffix_pathJoin (d n : List Char) : n <:+ pathJoin d n := by
  unfold pathJoin
  split_ifs
  · exact List.suffix_rfl
  · exact List.suffix_rfl
  · exact List.suffix_append d n
  · rw [List.append_cons]
    exact List.suffix_append _ n

theorem ne_pathJoin_suffix (d X v y e : List Char) (hv : e <:+ v)
    (hy : ¬ e <:+ y) : ¬ y = pathJoin d (X ++ v) := by
  intro h
  subst h
  exact hy ((hv.trans (List.suffix_append X v)).trans
    (suffix_pathJoin d (X ++ v)))

theorem mem_ite_list {c : Prop} [Decidable c] {x : α} {l1 l2 : List α}
    (h : x ∈ if c then l1 else l2) : x ∈ l1 ∨ x ∈ l2 := by
  split at h
  · exact Or.inl h
  · exact Or.inr h

theorem bitDepth_ne_flag (cfg : WorkerCfg) (cs ext : List Char) (d : Bool)
    (f : List Char) (hf : f ∈ colorTransformFlags) :
    ¬ bitDepth cfg cs ext d = f := by
  intro h
  subst h
  revert hf
  unfold bitDepth
  split_ifs <;> decide

theorem ratColorPart_eq_nil (cc av cs : List Char)
    (h : cs = lc "raw" ∨ cs = lc "acescg") : ratColorPart cc av cs = [] := by
  unfold ratColorPart
  rw [if_pos h]

theorem txColorPart_eq_nil (cc av cs : List Char)
    (h : cs = lc "raw" ∨ cs = lc "acescg") : txColorPart cc av cs = [] := by
  unfold txColorPart
  rw [if_neg (fun hco => hco.1 h)]

theorem arnoldColorPart_eq_nil (cc av cs : List Char)
    (h : cs = lc "raw" ∨ cs = lc "acescg") : arnoldColorPart cc av cs = [] := by
  unfold arnoldColorPart
  rw [if_neg (fun hco => hco.1 h)]

theorem ratCmd_no_flag (cfg : WorkerCfg)
    (imaketx_path color_config aces_version texture color_space : List Char)
    (hcs : color_space = lc "raw" ∨ color_space = lc "acescg")
    (f : List Char) (hf : f ∈ colorTransformFlags)
    (hi : ¬ imaketx_path = f) (ht : ¬ texture = f) :
    f ∉ ratCmd cfg imaketx_path color_config aces_version texture
      color_space := by
  have hf3 : f = lc "--colorconvert" ∨ f = lc "-ocioconvert"
      ∨ f = lc "--colorconfig" := by
    simpa [colorTransformFlags] using hf
  intro hmem
  simp only [ratCmd, ratColorPart_eq_nil _ _ _ hcs, List.append_nil, or_assoc,
    List.mem_append, List.mem_cons, List.not_mem_nil, or_false] at hmem
  rcases hmem with h | h | h | h | h | h
  · exact hi h.symm
  · rcases hf3 with rfl | rfl | rfl <;> revert h <;> decide
  · rcases hf3 with rfl | rfl | rfl <;> revert h <;> decide
  · rcases hf3 with rfl | rfl | rfl <;> revert h <;> decide
  · exact ht h.symm
  · exact ne_pathJoin_suffix _ _ _ f (lc ".rat") List.suffix_rfl
      (by rcases hf3 with rfl | rfl | rfl <;> decide) h

theorem txCmd_no_flag (cfg : WorkerCfg)
    (txmake_path color_config aces_version texture color_space : List Char)
    (hcs : color_space = lc "raw" ∨ color_space = lc "acescg")
    (f : List Char) (hf : f ∈ colorTransformFlags)
    (hx : ¬ txmake_path = f) (ht : ¬ texture = f) :
    f ∉ txCmd cfg txmake_path color_config aces_version texture
      color_space := by
  have hf3 : f = lc "--colorconvert" ∨ f = lc "-ocioconvert"
      ∨ f = lc "--colorconfig" := by
    simpa [colorTransformFlags] using hf
  intro hmem
  simp only [txCmd, txColorPart_eq_nil _ _ _ hcs, List.append_nil, or_assoc,
    List.nil_append, List.mem_append, List.mem_cons, List.not_mem_nil,
    or_false] at hmem
  rcases hmem with h | h | h | h | h | h | h | h | h | h | h | h
  · exact hx h.symm
  · rcases hf3 with rfl | rfl | rfl <;> revert h <;> decide
  · rcases hf3 with rfl | rfl | rfl <;> revert h <;> decide
  · rcases mem_ite_list h with h | h <;>
      rcases hf3 with rfl | rfl | rfl <;> revert h <;> decide
  · rcases mem_ite_list h with h | h
    · rcases hf3 with rfl | rfl | rfl <;> revert h <;> decide
    · rcases mem_ite_list h with h | h <;>
        rcases hf3 with rfl | rfl | rfl <;> revert h <;> decide
  · rcases hf3 with rfl | rfl | rfl <;> revert h <;> decide
  · rcases hf3 with rfl | rfl | rfl <;> revert h <;> decide
  · rcases hf3 with rfl | rfl | rfl <;> revert h <;> decide
  · rcases hf3 with rfl | rfl | rfl <;> revert h <;> decide
  · rcases mem_ite_list h with h | h
    · rcases mem_ite_list h with h | h <;>
        rcases hf3 with rfl | rfl | rfl <;> revert h <;> decide
    · rcases hf3 with rfl | rfl | rfl <;> revert h <;> decide
  · exact ht h.symm
  · by_cases hb : (cfg.use_renderman_bumprough
        && (isBumpName (workerSuffix cfg color_space (texStem texture)).1
            || isNormalName (workerSuffix cfg color_space
                (texStem texture)).1)) = true
    · rw [if_pos hb] at h
      exact ne_pathJoin_suffix _ _ _ f (lc ".b2r") List.suffix_rfl
        (by rcases hf3 with rfl | rfl | rfl <;> decide) h
    · rw [if_neg hb] at h
      exact ne_pathJoin_suffix _ _ _ f (lc ".tex")
        ((List.suffix_append _ _).trans (List.suffix_cons '.' _))
        (by rcases hf3 with rfl | rfl | rfl <;> decide) h

theorem arnoldCmd_no_flag (cfg : WorkerCfg)
    (arnold_path color_config aces_version texture color_space : List Char)
    (hcs : color_space = lc "raw" ∨ color_space = lc "acescg")
    (f : List Char) (hf : f ∈ colorTransformFlags)
    (ha : ¬ arnold_path = f) (ht : ¬ texture = f) :
    f ∉ arnoldCmd cfg arnold_path color_config aces_version texture
      color_space := by
  have hf3 : f = lc "--colorconvert" ∨ f = lc "-ocioconvert"
      ∨ f = lc "--colorconfig" := by
    simpa [colorTransformFlags] using hf
  intro hmem
  simp only [arnoldCmd, arnoldColorPart_eq_nil _ _ _ hcs, List.append_nil,
    List.nil_append, or_assoc, List.mem_append, List.mem_cons,
    List.not_mem_nil, or_false] at hmem
  rcases hmem with h | h | h | h | h | h | h | h | h | h | h | h
  · exact ha h.symm
  · rcases hf3 with rfl | rfl | rfl <;> revert h <;> decide
  · rcases hf3 with rfl | rfl | rfl <;> revert h <;> decide
  · exact ne_pathJoin_suffix _ _ _ f (lc ".tx") List.suffix_rfl
      (by rcases hf3 with rfl | rfl | rfl <;> decide) h
  · rcases hf3 with rfl | rfl | rfl <;> revert h <;> decide
  · rcases hf3 with rfl | rfl | rfl <;> revert h <;> decide
  · rcases hf3 with rfl | rfl | rfl <;> revert h <;> decide
  · rcases hf3 with rfl | rfl | rfl <;> revert h <;> decide
  · exact bitDepth_ne_flag _ _ _ _ f hf h.symm
  · rcases mem_ite_list h with h | h <;>
      rcases hf3 with rfl | rfl | rfl <;> revert h <;> decide
  · rcases hf3 with rfl | rfl | rfl <;> revert h <;> decide
  · exact ht h.symm

/-- C2: when the color space is RAW or ACEScg, none of the three backend
command builders emits a color-transform flag (`--colorconvert`,
`-ocioconvert`, or the `--colorconfig` pair), for every detected ACES config
version and whether or not a color configuration path is resolved.  The
hypotheses only rule out the degenerate case of a texture path or tool path
that is itself spelled like one of the flags. -/
theorem c2_no_color_transform_raw_acescg (cfg : WorkerCfg)
    (imaketx_path arnold_path txmake_path color_config aces_version
      texture color_space : List Char)
    (hcs : color_space = lc "raw" ∨ color_space = lc "acescg")
    (hpaths : ∀ f ∈ colorTransformFlags,
      ¬ texture = f ∧ ¬ imaketx_path = f ∧ ¬ arnold_path = f
        ∧ ¬ txmake_path = f) :
    (∀ f ∈ colorTransformFlags,
      f ∉ ratCmd cfg imaketx_path color_config aces_version texture
        color_space)
      ∧ (∀ f ∈ colorTransformFlags,
          f ∉ txCmd cfg txmake_path color_config aces_version texture
            color_space)
      ∧ (∀ f ∈ colorTransformFlags,
          f ∉ arnoldCmd cfg arnold_path color_config aces_version texture
            color_space) := by
  refine ⟨fun f hf => ?_, fun f hf => ?_, fun f hf => ?_⟩
  · exact ratCmd_no_flag cfg imaketx_path color_config aces_version texture
      color_space hcs f hf (hpaths f hf).2.1 (hpaths f hf).1
  · exact txCmd_no_flag cfg txmake_path color_config aces_version texture
      color_space hcs f hf (hpaths f hf).2.2.2 (hpaths f hf).1
  · exact arnoldCmd_no_flag cfg arnold_path color_config aces_version texture
      color_space hcs f hf (hpaths f hf).2.2.1 (hpaths f hf).1

/-- C2 witness: at a concrete RAW texture with concrete tool paths and a
resolved ACES 1.3 config, none of the three commands contains any of the
three color-transform flags. -/
theorem c2_witness :
    lc "--colorconvert" ∉ ratCmd ⟨false, true, true, false, false⟩
        (lc "imaketx") (lc "/cfg.ocio") (lc "1.3") (lc "a/t.png") (lc "raw")
      ∧ lc "-ocioconvert" ∉ txCmd ⟨false, true, true, false, false⟩
          (lc "/rman/bin/txmake") (lc "/cfg.ocio") (lc "1.3") (lc "a/t.png")
          (lc "raw")
      ∧ lc "--colorconfig" ∉ arnoldCmd ⟨false, true, true, false, false⟩
          (lc "maketx") (lc "/cfg.ocio") (lc "1.3") (lc "a/t.png")
          (lc "raw") := by
  have h := c2_no_color_transform_raw_acescg ⟨false, true, true, false, false⟩
    (lc "imaketx") (lc "maketx") (lc "/rman/bin/txmake") (lc "/cfg.ocio")
    (lc "1.3") (lc "a/t.png") (lc "raw") (Or.inl rfl) (by decide)
  exact ⟨h.1 _ (by decide), h.2.1 _ (by decide), h.2.2 _ (by decide)⟩


theorem chunksF_nil (fuel c : Nat) : chunksF fuel c ([] : List α) = [] := by
  cases fuel <;> rfl

theorem chunksF_flatten (c : Nat) (hc : 0 < c) :
    ∀ (fuel : Nat) (l : List α), l.length ≤ fuel →
      (chunksF fuel c l).flatten = l := by
  intro fuel
  induction fuel with
  | zero =>
    intro l hl
    rw [List.length_eq_zero.mp (Nat.le_zero.mp hl)]
    rfl
  | succ fuel ih =>
    intro l hl
    cases l with
    | nil => rfl
    | cons x t =>
      show ((x :: t).take c :: chunksF fuel c ((x :: t).drop c)).flatten
        = x :: t
      rw [List.flatten_cons, ih ((x :: t).drop c)
        (by simp only [List.length_drop, List.length_cons] at *; omega)]
      exact List.take_append_drop c (x :: t)

theorem chunksF_mem (c : Nat) (hc : 0 < c) :
    ∀ (fuel : Nat) (l g : List α), l.length ≤ fuel →
      g ∈ chunksF fuel c l → g ≠ [] ∧ g.length ≤ c := by
  intro fuel
  induction fuel with
  | zero =>
    intro l g _ hg
    simp [chunksF] at hg
  | succ fuel ih =>
    intro l g hl hg
    cases l with
    | nil => simp [chunksF_nil] at hg
    | cons x t =>
      rcases List.mem_cons.mp hg with h | h
      · subst h
        obtain ⟨m, rfl⟩ : ∃ m, c = m + 1 := ⟨c - 1, by omega⟩
        constructor
        · rw [List.take_succ_cons]
          exact List.cons_ne_nil x _
        · simp [List.length_take]
      · exact ih ((x :: t).drop c) g
          (by simp only [List.length_drop, List.length_cons] at *; omega) h

theorem chunksF_dropLast (c : Nat) (hc : 0 < c) :
    ∀ (fuel : Nat) (l g : List α), l.length ≤ fuel →
      g ∈ (chunksF fuel c l).dropLast → g.length = c := by
  intro fuel
  induction fuel with
  | zero =>
    intro l g _ hg
    simp [chunksF] at hg
  | succ fuel ih =>
    intro l g hl hg
    cases l with
    | nil => simp [chunksF_nil] at hg
    | cons x t =>
      rw [show chunksF (fuel + 1) c (x :: t)
        = (x :: t).take c :: chunksF fuel c ((x :: t).drop c) from rfl] at hg
      cases hrest : chunksF fuel c ((x :: t).drop c) with
      | nil => rw [hrest] at hg; simp at hg
      | cons r rs =>
        rw [hrest, List.dropLast_cons₂] at hg
        rcases List.mem_cons.mp hg with h | h
        · subst h
          have hdrop : (x :: t).drop c ≠ [] := by
            intro hnil
            rw [hnil, chunksF_nil] at hrest
            exact List.noConfusion hrest
          have hlen : c < (x :: t).length := by
            by_contra hle
            exact hdrop (List.drop_eq_nil_of_le (by omega))
          simp only [List.length_take, List.length_cons]
          simp only [List.length_cons] at hlen
          omega
        · rw [← hrest] at h
          exact ih ((x :: t).drop c) g
            (by simp only [List.length_drop, List.length_cons] at *; omega) h

theorem chunks_flatten (c : Nat) (hc : 0 < c) (l : List α) :
    (chunks c l).flatten = l := by
  unfold chunks
  rw [if_neg hc.ne']
  exact chunksF_flatten c hc l.length l le_rfl

theorem chunks_mem (c : Nat) (hc : 0 < c) (l : List α) :
    ∀ g ∈ chunks c l, g ≠ [] ∧ g.length ≤ c := by
  intro g hg
  unfold chunks at hg
  rw [if_neg hc.ne'] at hg
  exact chunksF_mem c hc l.length l g le_rfl hg

theorem chunks_dropLast (c : Nat) (hc : 0 < c) (l : List α) :
    ∀ g ∈ (chunks c l).dropLast, g.length = c := by
  intro g hg
  unfold chunks at hg
  rw [if_neg hc.ne'] at hg
  exact chunksF_dropLast c hc l.length l g le_rfl hg

theorem progressValues_append (a b : List Event) :
    progressValues (a ++ b) = progressValues a ++ progressValues b := by
  induction a with
  | nil => rfl
  | cons e t ih => cases e <;> simp [progressValues, ih]

theorem progressValues_group (raises : α → Bool) :
    ∀ (g : List α) (s : Nat),
      progressValues (groupEvents raises s g) = List.range' (s + 1) g.length := by
  intro g
  induction g with
  | nil => intro s; rfl
  | cons x t ih =>
    intro s
    rw [show groupEvents raises s (x :: t)
        = (if raises x then [Event.errorLog] else [])
            ++ Event.progress (s + 1) :: groupEvents raises (s + 1) t
      from rfl]
    rw [progressValues_append, List.length_cons,
      List.range'_succ (s + 1) t.length 1]
    cases hx : raises x <;> simp [progressValues, ih (s + 1)]

theorem finished_not_mem_group (raises : α → Bool) :
    ∀ (g : List α) (s : Nat), Event.finished ∉ groupEvents raises s g := by
  intro g
  induction g with
  | nil => intro s; simp [groupEvents]
  | cons x t ih =>
    intro s
    cases hx : raises x <;> simp [groupEvents, hx, ih (s + 1)]

theorem progressValues_batch (raises : α → Bool) :
    ∀ (gs : List (List α)) (s : Nat),
      progressValues (batchEvents raises s gs)
        = List.range' (s + 1) ((gs.map List.length).sum) := by
  intro gs
  induction gs with
  | nil => intro s; rfl
  | cons g gs ih =>
    intro s
    rw [show batchEvents raises s (g :: gs)
        = groupEvents raises s g ++ batchEvents raises (s + g.length) gs
      from rfl]
    rw [progressValues_append, progressValues_group, ih (s + g.length)]
    have harr : s + g.length + 1 = s + 1 + g.length := by omega
    rw [harr]
    have happ := List.range'_append (s + 1) g.length
      ((gs.map List.length).sum) 1
    simp only [Nat.one_mul] at happ
    rw [happ, List.map_cons, List.sum_cons,
      Nat.add_comm ((List.map List.length gs).sum) g.length]

theorem finished_not_mem_batch (raises : α → Bool) :
    ∀ (gs : List (List α)) (s : Nat),
      Event.finished ∉ batchEvents raises s gs := by
  intro gs
  induction gs with
  | nil => intro s; simp [batchEvents]
  | cons g gs ih =>
    intro s
    rw [show batchEvents raises s (g :: gs)
        = groupEvents raises s g ++ batchEvents raises (s + g.length) gs
      from rfl]
    rw [List.mem_append]
    rintro (h | h)
    · exact finished_not_mem_group raises g s h
    · exact ih (s + g.length) h

theorem zip_perm_map_length :
    ∀ (gs hs : List (List α)), gs.length = hs.length →
      (∀ p ∈ gs.zip hs, p.1.Perm p.2) →
      gs.map List.length = hs.map List.length := by
  intro gs
  induction gs with
  | nil =>
    intro hs hlen _
    cases hs with
    | nil => rfl
    | cons h hs2 => simp at hlen
  | cons g gs ih =>
    intro hs hlen hp
    cases hs with
    | nil => simp at hlen
    | cons h hs2 =>
      simp only [List.map_cons]
      have h1 : g.Perm h := hp (g, h) (by simp)
      rw [h1.length_eq]
      have h2 := ih hs2 (by simpa using hlen)
        (fun p hp2 => hp p (by simp [hp2]))
      rw [h2]

theorem range'_getLast (s n : Nat) (hn : 0 < n) :
    (List.range' s n).getLast? = some (s + n - 1) := by
  obtain ⟨m, rfl⟩ : ∃ m, n = m + 1 := ⟨n - 1, by omega⟩
  have happ := List.range'_append s m 1 1
  simp only [Nat.one_mul, List.range'_one] at happ
  rw [show m + 1 = 1 + m by omega, ← happ, List.getLast?_concat]
  exact congrArg some (by omega)

theorem chain_le_range' (n : Nat) : ∀ s : Nat,
    List.Chain' (fun a b => a ≤ b) (List.range' s n) := by
  induction n with
  | zero => intro s; simp
  | succ m ih =>
    intro s
    rw [List.range'_succ s m 1]
    cases m with
    | zero => simp
    | succ k =>
      rw [List.range'_succ (s + 1) k 1]
      rw [List.chain'_cons]
      refine ⟨by omega, ?_⟩
      rw [← List.range'_succ (s + 1) k 1]
      exact ih (s + 1)

/-- C1: for any batch run over `l` with concurrency `c > 0`, the scheduler
partitions `l` into consecutive groups of size `c` (each nonempty, all of
size exactly `c` except possibly the last, jointly recomposing `l`), and —
whatever the completion order inside each group and whichever conversions
raise — it emits exactly `l.length` progress events with values
`1, 2, ..., l.length` (monotonically non-decreasing, final value
`l.length`), followed by exactly one finished event as the last event. -/
theorem c1_scheduler_progress (c : Nat) (l : List Nat) (raises : Nat → Bool)
    (groups : List (List Nat)) (hc : 0 < c)
    (hlen : groups.length = (chunks c l).length)
    (hperm : ∀ p ∈ groups.zip (chunks c l), p.1.Perm p.2) :
    ((chunks c l).flatten = l)
      ∧ (∀ g ∈ chunks c l, g ≠ [] ∧ g.length ≤ c)
      ∧ (∀ g ∈ (chunks c l).dropLast, g.length = c)
      ∧ (progressValues (runEvents raises groups)
          = List.range' 1 l.length)
      ∧ ((progressValues (runEvents raises groups)).length = l.length)
      ∧ List.Chain' (fun a b => a ≤ b)
          (progressValues (runEvents raises groups))
      ∧ (l ≠ [] →
          (progressValues (runEvents raises groups)).getLast?
            = some l.length)
      ∧ ((runEvents raises groups).count Event.finished = 1)
      ∧ ((runEvents raises groups).getLast? = some Event.finished) := by
  have hflat := chunks_flatten c hc l
  have hsum : (groups.map List.length).sum = l.length := by
    rw [zip_perm_map_length groups (chunks c l) hlen hperm]
    have hlj := List.length_flatten (chunks c l)
    rw [hflat] at hlj
    omega
  have hpv : progressValues (runEvents raises groups)
      = List.range' 1 l.length := by
    unfold runEvents
    rw [progressValues_append, progressValues_batch raises groups 0, hsum]
    simp [progressValues]
  refine ⟨hflat, chunks_mem c hc l, chunks_dropLast c hc l, hpv, ?_, ?_, ?_,
    ?_, ?_⟩
  · rw [hpv, List.length_range']
  · rw [hpv]
    exact chain_le_range' l.length 1
  · intro hne
    rw [hpv, range'_getLast 1 l.length
      (by cases l with | nil => exact absurd rfl hne | cons a t => simp)]
    exact congrArg some (by omega)
  · unfold runEvents
    rw [List.count_append]
    rw [List.count_eq_zero.mpr (finished_not_mem_batch raises groups 0)]
    rfl
  · exact List.getLast?_concat _

/-- C1 witness: five items with concurrency 2, group completion orders
permuted and one conversion raising, still give progress values `1..5` and
exactly one finished event. -/
theorem c1_witness :
    progressValues (runEvents (fun n => n == 30) [[20, 10], [30, 40], [50]])
        = List.range' 1 5
      ∧ (runEvents (fun n => n == 30)
          [[20, 10], [30, 40], [50]]).count Event.finished = 1 := by
  have h := c1_scheduler_progress 2 [10, 20, 30, 40, 50] (fun n => n == 30)
    [[20, 10], [30, 40], [50]] (by decide) (by decide) (by decide)
  exact ⟨h.2.2.2.1, h.2.2.2.2.2.2.2.1⟩

/-- C6 (code evidence): `subprocess.run` is invoked without `check=True`, so
a non-zero exit code never raises `CalledProcessError` and the dead
`except` handler's failure line is never emitted: evaluated at a maketx
invocation that exits with code 1 and an error on stderr, `convert_texture`
emits the success line `"Converted: ..."`, emits no `"Failed to convert"`
line, and records no failure. -/
theorem c6_nonzero_exit_logged_as_success :
    ((arnoldRunLogs (lc "foo.png") (lc "foo.tx")
        (ProcRes.completed 1 [] (lc "error: could not open"))).2 = false)
      ∧ (lc "Converted: foo.png -> foo.tx")
          ∈ (arnoldRunLogs (lc "foo.png") (lc "foo.tx")
              (ProcRes.completed 1 [] (lc "error: could not open"))).1
      ∧ ((arnoldRunLogs (lc "foo.png") (lc "foo.tx")
          (ProcRes.completed 1 [] (lc "error: could not open"))).1.all
            (fun m => !(lc "Failed to convert").isPrefixOf m)) = true
      ∧ progressValues (runEvents (fun n => n == 1) [[1, 2, 3]]) = [1, 2, 3]
        := by
  decide

theorem splitAtLastSep_no_slash : ∀ p : List Char,
    '/' ∉ p → splitAtLastSep p = ([], p) := by
  intro p
  induction p with
  | nil => intro _; rfl
  | cons c t ih =>
    intro h
    have hc : ¬ c = '/' := fun hcc => h (by simp [hcc])
    have ht : '/' ∉ t := fun hm => h (List.mem_cons_of_mem c hm)
    simp only [splitAtLastSep, ih ht]
    simp [hc]

theorem splitAtLastSep_sep (a : List Char) : ∀ b : List Char, '/' ∉ b →
    splitAtLastSep (a ++ '/' :: b) = (a ++ ['/'], b) := by
  induction a with
  | nil =>
    intro b hb
    simp only [List.nil_append, splitAtLastSep, splitAtLastSep_no_slash b hb]
    simp
  | cons x a ih =>
    intro b hb
    simp only [List.cons_append, splitAtLastSep, List.append_eq]
    rw [ih b hb]
    have hne : a ++ ['/'] ≠ [] := by simp
    simp [hne]

theorem splitAtLastSep_props : ∀ p : List Char,
    '/' ∉ (splitAtLastSep p).2
      ∧ ((splitAtLastSep p).1 = [] → '/' ∉ p) := by
  intro p
  induction p with
  | nil => exact ⟨by simp [splitAtLastSep], fun _ => by simp⟩
  | cons c t ih =>
    have hcase : splitAtLastSep (c :: t)
        = (if (splitAtLastSep t).1 = [] then
            (if c = '/' then ([c], t) else ([], c :: t))
          else (c :: (splitAtLastSep t).1, (splitAtLastSep t).2)) := rfl
    by_cases h1 : (splitAtLastSep t).1 = []
    · have ht : '/' ∉ t := ih.2 h1
      by_cases h2 : c = '/'
      · rw [hcase, if_pos h1, if_pos h2]
        exact ⟨ht, fun hx => absurd hx (by simp)⟩
      · rw [hcase, if_pos h1, if_neg h2]
      
        refine ⟨?_, fun _ => ?_⟩ <;>
          · intro hm
            rcases List.mem_cons.mp hm with hm1 | hm1
            · exact h2 hm1.symm
            · exact ht hm1
    · rw [hcase, if_neg h1]
      exact ⟨ih.1, fun hx => absurd hx (by simp)⟩

theorem basename_no_slash (p : List Char) : '/' ∉ basename p :=
  (splitAtLastSep_props p).1

theorem basename_of_no_slash (p : List Char) (h : '/' ∉ p) :
    basename p = p := by
  unfold basename
  rw [splitAtLastSep_no_slash p h]

theorem basename_pathJoin (d n : List Char) (hn : '/' ∉ n) (hne : n ≠ []) :
    basename (pathJoin d n) = n := by
  unfold pathJoin
  split_ifs with habs hd hlast
  · exfalso
    cases n with
    | nil => simp at habs
    | cons a t =>
      simp at habs
      exact hn (by simp [habs])
  · exact basename_of_no_slash n hn
  · obtain ⟨d2, rfl⟩ := (List.getLast?_eq_some_iff).1 hlast
    rw [show (d2 ++ ['/']) ++ n = d2 ++ '/' :: n by simp]
    unfold basename
    rw [splitAtLastSep_sep d2 n hn]
  · unfold basename
    rw [splitAtLastSep_sep d n hn]

theorem lastIdxOf_eq_none_iff (c : Char) : ∀ l : List Char,
    lastIdxOf c l = none ↔ c ∉ l := by
  intro l
  induction l with
  | nil => simp [lastIdxOf]
  | cons x t ih =>
    simp only [lastIdxOf]
    cases h : lastIdxOf c t with
    | some j =>
      have hct : c ∈ t := by
        by_contra hc
        rw [ih.2 hc] at h
        exact Option.noConfusion h
      simp [hct]
    | none =>
      have hct : c ∉ t := ih.1 h
      by_cases hx : x = c
      · simp [hx, hct]
      · have hcx : ¬ c = x := fun hh => hx hh.symm
        simp [hx, hct, hcx]

theorem lastIdxOf_spec (c : Char) : ∀ (l : List Char) (i : Nat),
    lastIdxOf c l = some i →
      i < l.length ∧ l.drop i = c :: l.drop (i + 1) ∧ c ∉ l.drop (i + 1) := by
  intro l
  induction l with
  | nil => intro i h; simp [lastIdxOf] at h
  | cons x t ih =>
    intro i h
    simp only [lastIdxOf] at h
    cases ht : lastIdxOf c t with
    | some j =>
      rw [ht] at h
      simp only [Option.some.injEq] at h
      subst h
      obtain ⟨h1, h2, h3⟩ := ih j ht
      refine ⟨by simp; omega, ?_, ?_⟩
      · simpa [List.drop_succ_cons] using h2
      · simpa [List.drop_succ_cons] using h3
    | none =>
      rw [ht] at h
      by_cases hx : x = c
      · rw [if_pos hx] at h
        simp only [Option.some.injEq] at h
        subst h
        subst hx
        refine ⟨by simp, by simp, ?_⟩
        simpa using (lastIdxOf_eq_none_iff x t).1 ht
      · rw [if_neg hx] at h
        exact Option.noConfusion h

theorem lastIdxOf_append (c : Char) (a b : List Char) (hb : c ∉ b) :
    lastIdxOf c (a ++ c :: b) = some a.length := by
  induction a with
  | nil =>
    simp only [List.nil_append, lastIdxOf]
    rw [(lastIdxOf_eq_none_iff c b).2 hb]
    simp
  | cons x a ih =>
    simp only [List.cons_append, lastIdxOf, List.append_eq]
    rw [ih]
    simp

theorem splitExtTail_spec (tail : List Char) :
    (splitExtTail tail).1 ++ (splitExtTail tail).2 = tail
      ∧ ((splitExtTail tail).2 = []
          ∨ ∃ r, (splitExtTail tail).2 = '.' :: r ∧ '.' ∉ r) := by
  cases h : lastIdxOf '.' tail with
  | none =>
    have he : splitExtTail tail = (tail, []) := by
      unfold splitExtTail
      rw [h]
    rw [he]
    exact ⟨by simp, Or.inl rfl⟩
  | some i =>
    have he : splitExtTail tail
        = if (tail.take i).any (fun c => c ≠ '.') = true then
            (tail.take i, tail.drop i)
          else (tail, []) := by
      unfold splitExtTail
      rw [h]
    obtain ⟨h1, h2, h3⟩ := lastIdxOf_spec '.' tail i h
    rw [he]
    by_cases ha : (tail.take i).any (fun c => c ≠ '.') = true
    · rw [if_pos ha]
      exact ⟨List.take_append_drop i tail,
        Or.inr ⟨tail.drop (i + 1), h2, h3⟩⟩
    · rw [if_neg ha]
      exact ⟨by simp, Or.inl rfl⟩

theorem splitExtTail_concrete (X r : List Char) (hr : '.' ∉ r)
    (hX : X.any (fun c => c ≠ '.') = true) :
    splitExtTail (X ++ '.' :: r) = (X, '.' :: r) := by
  unfold splitExtTail
  simp only [lastIdxOf_append '.' X r hr, List.take_left, List.drop_left]
  rw [if_pos hX]

theorem genSplitExt_snd (p : List Char) :
    (genSplitExt p).2 = (splitExtTail (basename p)).2 :=
  rfl

theorem genSplitExt_of_no_slash (p : List Char) (h : '/' ∉ p) :
    genSplitExt p = splitExtTail p := by
  unfold genSplitExt
  rw [splitAtLastSep_no_slash p h]
  simp

theorem label_facts (cs : List Char) (h : cs ∈ fourLabels) :
    pyLower ('_' :: cs) = '_' :: cs ∧ '.' ∉ cs ∧ '/' ∉ cs
      ∧ ('_' :: cs) ∈ hardSuffixTokens := by
  simp only [fourLabels, List.mem_cons, List.not_mem_nil, or_false] at h
  rcases h with rfl | rfl | rfl | rfl <;> decide

theorem renameOne_cases (pats : Patterns) (cust : CustomPatterns)
    (tifS : Bool) (f : List Char) :
    ((renameOne pats cust tifS f).1 = f
        ∧ (renameOne pats cust tifS f).2 = false)
      ∨ (pyLower (genSplitExt f).2 ∈ validExts
          ∧ (renameOne pats cust tifS f).2 = true
          ∧ (renameOne pats cust tifS f).1
              = pathJoin (dirname f)
                  ((genSplitExt (basename f)).1
                    ++ '_' :: ((determine_color_space pats cust f
                          (pyLower (genSplitExt f).2) tifS).1
                        ++ (genSplitExt (basename f)).2))) := by
  simp only [renameOne]
  by_cases h1 : pyLower (genSplitExt f).2 ∈ validExts
  · rw [if_neg (not_not_intro h1),
      if_neg (not_not_intro
        (determine_color_space_mem pats cust f (pyLower (genSplitExt f).2)
          tifS))]
    by_cases h3 : (hardSuffixTokens.any fun suf =>
        containsSub suf (pyLower (genSplitExt (basename f)).1)) = true
    · rw [if_pos h3]
      exact Or.inl ⟨rfl, rfl⟩
    · rw [if_neg h3]
      exact Or.inr ⟨h1, rfl, rfl⟩
  · rw [if_pos h1]
    exact Or.inl ⟨rfl, rfl⟩

theorem renameOne_renamed_skipped (pats : Patterns) (cust : CustomPatterns)
    (tifS : Bool) (f : List Char)
    (hext : pyLower (genSplitExt f).2 ∈ validExts) :
    (renameOne pats cust tifS
      (pathJoin (dirname f)
        ((genSplitExt (basename f)).1
          ++ '_' :: ((determine_color_space pats cust f
                (pyLower (genSplitExt f).2) tifS).1
              ++ (genSplitExt (basename f)).2)))).2 = false := by
  have hcsmem := determine_color_space_mem pats cust f
    (pyLower (genSplitExt f).2) tifS
  obtain ⟨hlow, hdot, hslash, htok⟩ := label_facts _ hcsmem
  have hgb : genSplitExt (basename f) = splitExtTail (basename f) :=
    genSplitExt_of_no_slash _ (basename_no_slash f)
  obtain ⟨happ, hstruct⟩ := splitExtTail_spec (basename f)
  have hef : (genSplitExt f).2 = (splitExtTail (basename f)).2 :=
    genSplitExt_snd f
  obtain ⟨r, her, hdr⟩ :
      ∃ r, (splitExtTail (basename f)).2 = '.' :: r ∧ '.' ∉ r := by
    rcases hstruct with he0 | hok
    · rw [hef, he0] at hext
      exact absurd hext (by decide)
    · exact hok
  have hrne : r ≠ [] := by
    intro h0
    rw [hef, her, h0] at hext
    exact absurd hext (by decide)
  have hse : '/' ∉ (splitExtTail (basename f)).2 := fun hm =>
    basename_no_slash f (happ ▸ List.mem_append_right _ hm)
  have hsb : '/' ∉ (splitExtTail (basename f)).1 := fun hm =>
    basename_no_slash f (happ ▸ List.mem_append_left _ hm)
  set cs := (determine_color_space pats cust f
    (pyLower (genSplitExt f).2) tifS).1 with hcsdef
  set name := (genSplitExt (basename f)).1
    ++ '_' :: (cs ++ (genSplitExt (basename f)).2) with hnamedef
  have hname2 : name = ((splitExtTail (basename f)).1 ++ '_' :: cs)
      ++ '.' :: r := by
    rw [hnamedef, hgb, her]
    simp
  have hnos : '/' ∉ name := by
    rw [hname2]
    intro hm
    rcases List.mem_append.mp hm with hm1 | hm1
    · rcases List.mem_append.mp hm1 with hm2 | hm2
      · exact hsb hm2
      · rcases List.mem_cons.mp hm2 with hm3 | hm3
        · exact absurd hm3 (by decide)
        · exact hslash hm3
    · rcases List.mem_cons.mp hm1 with hm3 | hm3
      · exact absurd hm3 (by decide)
      · exact hse (by rw [her]; exact List.mem_cons_of_mem _ hm3)
  have hnne : name ≠ [] := by
    rw [hname2]
    simp
  have hX : ((splitExtTail (basename f)).1 ++ '_' :: cs).any
      (fun c => c ≠ '.') = true :=
    List.any_eq_true.2 ⟨'_', List.mem_append_right _ (List.mem_cons_self _ _),
      by decide⟩
  have hsplit_name : splitExtTail name
      = ((splitExtTail (basename f)).1 ++ '_' :: cs, '.' :: r) := by
    rw [hname2]
    exact splitExtTail_concrete _ _ hdr hX
  have hbn : basename (pathJoin (dirname f) name) = name :=
    basename_pathJoin _ _ hnos hnne
  have h2' : (genSplitExt (pathJoin (dirname f) name)).2 = '.' :: r := by
    rw [genSplitExt_snd, hbn, hsplit_name]
  have hbe' : genSplitExt (basename (pathJoin (dirname f) name))
      = ((splitExtTail (basename f)).1 ++ '_' :: cs, '.' :: r) := by
    rw [hbn, genSplitExt_of_no_slash name hnos, hsplit_name]
  have hev : pyLower ('.' :: r) ∈ validExts := by
    rw [← her, ← hef]
    exact hext
  have hc3 : hardSuffixTokens.any (fun suf =>
      containsSub suf (pyLower ((splitExtTail (basename f)).1
        ++ '_' :: cs))) = true := by
    refine List.any_eq_true.2 ⟨'_' :: cs, htok, ?_⟩
    have : pyLower ((splitExtTail (basename f)).1 ++ '_' :: cs)
        = pyLower (splitExtTail (basename f)).1 ++ '_' :: cs := by
      unfold pyLower
      rw [List.map_append]
      unfold pyLower at hlow
      rw [hlow]
    rw [this]
    exact containsSub_append_self _ _
  simp only [renameOne, h2', hbe']
  rw [if_neg (not_not_intro hev)]
  rw [if_neg (not_not_intro (determine_color_space_mem pats cust _ _ tifS))]
  rw [if_pos hc3]

theorem renameOne_idem (pats : Patterns) (cust : CustomPatterns)
    (tifS : Bool) (f : List Char) :
    (renameOne pats cust tifS ((renameOne pats cust tifS f).1)).2
      = false := by
  rcases renameOne_cases pats cust tifS f with ⟨h1, h2⟩ | ⟨hext, _, h1⟩
  · rw [h1]
    exact h2
  · rw [h1]
    exact renameOne_renamed_skipped pats cust tifS f hext

/-- C9: the add-suffix rename pass is idempotent — running it a second time
on the output of a first run performs zero renames, for every file set and
every pattern configuration, because every file renamed by the first run
then bears a recognized canonical suffix token and is skipped. -/
theorem c9_rename_idempotent (pats : Patterns) (cust : CustomPatterns)
    (tifS : Bool) (files : List (List Char)) :
    (renamePass pats cust tifS (renamePass pats cust tifS files).1).2 = 0 := by
  induction files with
  | nil => rfl
  | cons f rest ih =>
    simp only [renamePass]
    rw [renameOne_idem pats cust tifS f]
    simp [ih]

end TxConv

